import Mathlib

/-!
# Verification of the MultiStorage write fan-out coordinator

Shallow embedding of the `MultiStorage` class (source: `src/unnamed/part_000`,
first document; the callback-based variant matching `src/test/multi-storage.js`).

Modelling conventions:
* JavaScript `null` / `undefined` / proper values are modelled by `JVal`
  wherever the source distinguishes them (`_.isNull` is true only for `null`).
* Provider behaviours are modelled by the data the coordinator observes from
  them: the completion `(err, url)` a provider passes to its callback, the
  value `postStream` returns (a stream, an `Error`, or a falsy value), etc.
* Asynchronous completion order is made explicit: the arrival order of
  provider completions is a parameter (a permutation of the registry's
  per-provider completions), reflecting that `async.each` issues calls in
  registry order but completions may arrive in any order.
* Byte payloads are `List Nat`; `data.length` is the list length.
* Errors are represented by `String` messages.
-/

namespace MultiStorageModel

/-- A JavaScript value that may be `null`, `undefined`, or a proper value.
`_.isNull` is true only for `null`, which the source relies on in
`handleProviderCallsBack`. -/
inductive JVal (α : Type) where
  | null : JVal α
  | undef : JVal α
  | val : α → JVal α
deriving DecidableEq, Repr

/-- `_.isNull`: true exactly on JavaScript `null`. -/
def JVal.isNull {α : Type} : JVal α → Bool
  | .null => true
  | _ => false

/-! ## Provider admission (`addProvider`, lines 57-87) -/

/-- A candidate provider as the admission filter observes it: whether `name`
and `schemes` are defined, which of the five interface members are functions,
and the `priority` it arrives with (`none` = not set; the source also treats
a priority of `0` as unset because `!provider.priority` is a truthiness
test). -/
structure Cand where
  name : Option String
  schemes : Option (List String)
  get : Bool
  getStream : Bool
  post : Bool
  postStream : Bool
  delete : Bool
  priority : Option Int
deriving DecidableEq, Repr

/-- The admission filter of `addProvider` (lines 57-87), translated check by
check in source order: `name` defined, `schemes` defined, and `get`,
`getStream`, `post`, `postStream`, `delete` all functions. -/
def conforms (c : Cand) : Bool :=
  if c.name.isNone then false
  else if c.schemes.isNone then false
  else if !c.get then false
  else if !c.getStream then false
  else if !c.post then false
  else if !c.postStream then false
  else if !c.delete then false
  else true

/-- The admission predicate as claim C6 states it (for comparison with
`conforms`): reject exactly when `name` undefined, `schemes` undefined, or a
streaming-read, streaming-write or delete function is absent; scalar read
(`get`) and scalar write (`post`) are not required. -/
def claimedAdmits (c : Cand) : Bool :=
  c.name.isSome && c.schemes.isSome && c.getStream && c.postStream && c.delete

/-! ## Registry and priorities (`addProvider`, lines 85-102) -/

/-- A registry entry: an admitted candidate together with the priority it
holds in the registry (the source stores it on the provider object). -/
structure Entry where
  cand : Cand
  priority : Int
deriving DecidableEq, Repr

/-- The priority assigned to a conforming provider at insertion time
(lines 91-93): `if (!provider.priority) provider.priority = length + 1`,
where `length` is the registry size immediately before the push; `none` and
`0` are both falsy in JavaScript. -/
def assignedPriority (c : Cand) (len : Nat) : Int :=
  match c.priority with
  | none => (len : Int) + 1
  | some p => if p = 0 then (len : Int) + 1 else p

/-- The filter-and-push phase of `addProvider` (lines 57-96): conforming
candidates are appended one by one, each receiving its priority from the
registry size at its own insertion. -/
def appendPhase (reg : List Entry) : List Cand → List Entry
  | [] => reg
  | c :: cs =>
    if conforms c then
      appendPhase (reg ++ [⟨c, assignedPriority c reg.length⟩]) cs
    else
      appendPhase reg cs

/-- Stable descending insertion: an element is placed before the first
strictly-smaller priority, after any equal priorities already present. This
is the unique stable sort for the comparator `(a, b) => b.priority -
a.priority` used on line 99-101 (JavaScript `Array.sort` is stable). -/
def insertDesc (x : Entry) : List Entry → List Entry
  | [] => [x]
  | y :: ys => if x.priority ≥ y.priority then x :: y :: ys else y :: insertDesc x ys

/-- Stable sort of the registry, descending by priority (lines 99-101). -/
def sortByPriorityDesc (l : List Entry) : List Entry :=
  l.foldr insertDesc []

/-- One `addProvider` call (one admission batch): filter, assign priorities,
push, then re-sort the whole registry descending by priority. -/
def admitBatch (reg : List Entry) (cands : List Cand) : List Entry :=
  sortByPriorityDesc (appendPhase reg cands)

/-! ## Option normalization (`optionsForOptions`, lines 265-278) -/

/-- The caller-supplied options record; `none` marks an absent field.
Names are modelled as character lists so that the `%`-placeholder
substitution can be stated positionally. -/
structure WriteOptions where
  encoding : Option String
  path : Option String
  name : Option (List Char)
deriving DecidableEq, Repr

/-- The normalized options record handed to every provider. -/
structure ResolvedOptions where
  encoding : String
  path : String
  name : List Char
deriving DecidableEq, Repr

/-- JavaScript `String.prototype.replace` with a plain-string pattern:
replaces only the first occurrence of `t`. -/
def replaceFirst : List Char → Char → List Char → List Char
  | [], _, _ => []
  | c :: cs, t, r => if c = t then r ++ cs else c :: replaceFirst cs t r

/-- `optionsForOptions` (lines 265-278): fill `encoding`/`path` defaults via
`_.extend`, then: a falsy `name` (absent or empty) becomes a fresh uuid; a
name containing `%` has its first `%` replaced by a fresh uuid; any other
name is kept. `fresh` stands for the `uuid.v4()` value generated during the
call. -/
def optionsForOptions (fresh : List Char) (o : WriteOptions) : ResolvedOptions :=
  { encoding := o.encoding.getD "utf-8"
    path := o.path.getD ""
    name :=
      match o.name with
      | none => fresh
      | some n =>
        if n.isEmpty then fresh
        else if '%' ∈ n then replaceFirst n '%' fresh
        else n }

/-! ## `post` (lines 289-315)

`post` runs `async.each` over the registry: every provider's `post` is
issued, and each completion `(err, url)` pushes a truthy `url` onto `urls`
and forwards `err` to `async.each`, which invokes the final callback at the
FIRST erroring completion (or after all completions when none errs). The
final callback reports `bytes = data.length` on success and `0` on error
(lines 307-314). `arrivals` lists the per-provider completions in the order
they arrive. -/

/-- What one provider passes to its `post` callback. -/
structure PCompletion where
  err : Option String
  url : Option String
deriving DecidableEq, Repr

/-- `if (url) urls.push(url)` (line 302-304): a url is pushed only when
truthy (non-empty). -/
def pushVal (c : PCompletion) : Option String :=
  match c.url with
  | some u => if u = "" then none else some u
  | none => none

/-- Processing of completions in arrival order: push truthy urls, stop at the
first error (the `async.each` final callback fires there). Returns the error
handed to the final callback, and the `urls` array as it is at that moment. -/
def postAux : List PCompletion → List String → Option String × List String
  | [], acc => (none, acc)
  | c :: rest, acc =>
    let acc' := match pushVal c with
      | some u => acc ++ [u]
      | none => acc
    match c.err with
    | some e => (some e, acc')
    | none => postAux rest acc'

/-- The observable outcome of `post` (lines 289-315): the `(err, urls,
bytes)` triple given to the caller's callback. Option normalization
(line 297) does not influence this triple and is modelled separately by
`optionsForOptions`. -/
def postModel (data : List Nat) (arrivals : List PCompletion) :
    Option String × List String × Nat :=
  match postAux arrivals [] with
  | (some e, urls) => (some e, urls, 0)
  | (none, urls) => (none, urls, data.length)

/-! ## `postStream` sink-creation phase (lines 369-389)

The loop asks every provider for a writable stream. When a provider returns
an `Error` or a falsy value, the loop discards all handlers gathered so far
(`handlers = []`), calls the caller's callback with that provider's error (or
a synthesized one naming the provider), and returns `null` — no `PassThrough`
input channel is created and nothing is ever piped. Only when every provider
supplied a stream does the data phase begin. -/

/-- What one provider's `postStream` call returns: a writable stream
(identified by a tag), an `Error` object, or a falsy value (`null`,
`undefined`, ...). -/
inductive CreationResult where
  | streamVal : Nat → CreationResult
  | errorVal : String → CreationResult
  | nullVal : CreationResult
deriving DecidableEq, Repr

/-- `!stream || Error.prototype.isPrototypeOf(stream)` is false, i.e. the
provider produced a usable stream. -/
def CreationResult.usable : CreationResult → Bool
  | .streamVal _ => true
  | _ => false

/-- The error `postStream` rejects with when provider `name` fails to produce
a usable stream (line 379): the returned `Error` itself, or a new
`Error('Failed to create stream for provider <name>')` for a falsy value. -/
def creationError (name : String) : CreationResult → String
  | .errorVal e => e
  | _ => "Failed to create stream for provider " ++ name

/-- A handler whose stream was successfully created, before any completion
arrives (lines 372, 387). -/
structure CHandler where
  name : String
  streamId : Nat
deriving DecidableEq, Repr

/-- The creation loop (lines 369-389) over `(providerName, creationResult)`
pairs in registry order: the first unusable result aborts the whole call with
that provider's error (handlers discarded, `null` returned to the caller);
otherwise all handlers are kept and the data phase starts. -/
def createPhase : List (String × CreationResult) → Except String (List CHandler)
  | [] => .ok []
  | (n, r) :: rest =>
    match r with
    | .streamVal sid => (createPhase rest).map (fun hs => ⟨n, sid⟩ :: hs)
    | .errorVal e => .error e
    | .nullVal => .error (creationError n .nullVal)

/-! ## `postStream` completion tracking
(`handleProviderCallsBack`, lines 339-357, and
`createProviderFunctionCallCallback`, lines 359-367)

Each handler starts with `error = null` and `url = null`. A provider's
completion callback `(err, url)` stores both fields verbatim (only when the
handler's stream was set) and then runs `handleProviderCallsBack`, which
fires the session callback exactly when no handler is unfinished and at
least one is finished, reporting the urls of all handlers with non-null
`url` and, if any handler has a non-null `error`, an aggregate error
carrying those errors (`underlyingErrors`). -/

/-- A sink handle during the data phase: whether `handler.stream` is set
(truthy), and the raw `error` / `url` fields. -/
structure SHandler where
  stream : Bool
  error : JVal String
  url : JVal String
deriving DecidableEq, Repr

/-- `_.isNull(candidate.error) && _.isNull(candidate.url)` (line 341). -/
def SHandler.unfinished (h : SHandler) : Bool :=
  h.error.isNull && h.url.isNull

/-- `!_.isNull(candidate.error) || !_.isNull(candidate.url)` (line 342). -/
def SHandler.finished (h : SHandler) : Bool :=
  !h.error.isNull || !h.url.isNull

/-- The guard of `handleProviderCallsBack` (line 343): the session callback
fires iff no handler is unfinished and at least one is finished. -/
def sessionFires (hs : List SHandler) : Prop :=
  (hs.filter (fun h => h.unfinished)).length = 0 ∧
    0 < (hs.filter (fun h => h.finished)).length

instance (hs : List SHandler) : Decidable (sessionFires hs) := by
  unfold sessionFires; infer_instance

/-- The aggregate handed to the session callback when it fires
(lines 344-355): `(err, urls, receivedBytes)` where `urls` are the raw `url`
fields of handlers with non-null `url`, and `err` is an aggregate carrying
the `error` fields of handlers with non-null `error` (modelled as the list
of underlying errors), or `null` when there are none. -/
def fireResult (hs : List SHandler) (receivedBytes : Nat) :
    Option (List (JVal String)) × List (JVal String) × Nat :=
  let urls := (hs.filter (fun h => !h.url.isNull)).map (fun h => h.url)
  let errors := (hs.filter (fun h => !h.error.isNull)).map (fun h => h.error)
  (if 0 < errors.length then some errors else none, urls, receivedBytes)

/-- A completion event: the index of the handler whose provider called back,
and the `(err, url)` pair passed to the callback. -/
abbrev SEvent := Nat × JVal String × JVal String

/-- List lookup by index (the handler a provider callback closes over). -/
def getAt {α : Type} : List α → Nat → Option α
  | [], _ => none
  | h :: _, 0 => some h
  | _ :: t, k + 1 => getAt t k

/-- Replace the element at an index, if present. -/
def setAt {α : Type} : List α → Nat → α → List α
  | [], _, _ => []
  | _ :: t, 0, nh => nh :: t
  | h :: t, k + 1, nh => h :: setAt t k nh

/-- One provider completion (lines 359-367): if the targeted handler's stream
is set, store `err` and `url` on it and run the `handleProviderCallsBack`
check (second component `true`); otherwise nothing happens. -/
def stepCB (hs : List SHandler) (ev : SEvent) : List SHandler × Bool :=
  match getAt hs ev.1 with
  | some h => if h.stream then (setAt hs ev.1 ⟨h.stream, ev.2.1, ev.2.2⟩, true) else (hs, false)
  | none => (hs, false)

/-- How many times the session callback fires while the completion events in
`evs` are delivered, starting from handler state `hs`. -/
def fireCount (hs : List SHandler) : List SEvent → Nat
  | [] => 0
  | ev :: rest =>
    (if (stepCB hs ev).2 ∧ sessionFires (stepCB hs ev).1 then 1 else 0) +
      fireCount (stepCB hs ev).1 rest

/-- The handler state after delivering the completion events in `evs`. -/
def stateAfter (hs : List SHandler) : List SEvent → List SHandler
  | [] => hs
  | ev :: rest => stateAfter (stepCB hs ev).1 rest

/-- The handler list right after a successful creation phase for `n`
providers: every handler has its stream set and both fields `null`. -/
def initSession (n : Nat) : List SHandler :=
  List.replicate n ⟨true, JVal.null, JVal.null⟩

/-- Indices of the handlers that are still unfinished, counting from `k`. -/
def pendingIdxAux : List SHandler → Nat → List Nat
  | [], _ => []
  | h :: t, k =>
    if h.unfinished then k :: pendingIdxAux t (k + 1) else pendingIdxAux t (k + 1)

/-- Indices of the handlers that are still unfinished. -/
def pendingIdx (hs : List SHandler) : List Nat :=
  pendingIdxAux hs 0

/-- A completion event whose payload makes its handler finished: the `err` or
the `url` it carries is not `null`. -/
def SEvent.terminal (ev : SEvent) : Prop :=
  ev.2.1.isNull = false ∨ ev.2.2.isNull = false

instance (ev : SEvent) : Decidable ev.terminal := by
  unfold SEvent.terminal; infer_instance

/-! ## `get` (lines 198-219)

`get` resolves the provider for the url and then calls `provider.get(url,
encoding, doneW)` unconditionally — there is no conditional on the provider
exposing a scalar read, and no fallback to `getStream`. We model the
behaviour after routing: the provider either has a scalar read (whose
outcome is recorded) or not, in which case calling the absent function
throws a `TypeError` (modelled as an error outcome). -/

/-- Data returned by a read: a decoded string or raw bytes. -/
inductive GotData where
  | text : String → GotData
  | raw : List Nat → GotData
deriving DecidableEq, Repr

/-- A provider's read-side behaviour as `get` observes it: the outcome of its
scalar `get` (if it has one), and the outcome of its `getStream` (an error
event, or the chunks emitted before end-of-stream). -/
structure ReadProvider where
  get : Option (Except String GotData)
  getStream : Except String (List (List Nat))
deriving Repr

/-- `MultiStorage.get` after routing (lines 206-218): delegate to
`provider.get` unconditionally; a provider without a scalar `get` makes the
call throw. -/
def msGet (p : ReadProvider) (_encoding : String) : Except String GotData :=
  match p.get with
  | some r => r
  | none => .error "TypeError: provider.get is not a function"

/-- The read path as claim C7 states it (for comparison with `msGet`):
delegate to the scalar read when present, otherwise accumulate the stream's
chunks and convert them to the requested encoding — except `"binary"`, which
returns the raw bytes; a stream error propagates. `conv` stands for the
encoding conversion (`Buffer.toString(encoding)`). -/
def claimedGet (conv : String → List Nat → String) (p : ReadProvider)
    (encoding : String) : Except String GotData :=
  match p.get with
  | some r => r
  | none =>
    match p.getStream with
    | .error e => .error e
    | .ok chunks =>
      let acc := chunks.flatten
      .ok (if encoding = "binary" then .raw acc else .text (conv encoding acc))

/-! ## Lemmas about `post` -/

/-- Error-free completions are consumed one by one, each appending its truthy
url. -/
theorem postAux_append_of_no_err (pre l : List PCompletion) (acc : List String)
    (h : ∀ x ∈ pre, x.err = none) :
    postAux (pre ++ l) acc = postAux l (acc ++ pre.filterMap pushVal) := by
  induction pre generalizing acc with
  | nil => simp [List.filterMap_nil]
  | cons c pre ih =>
    have hc : c.err = none := h c (List.mem_cons_self c pre)
    have hrest : ∀ x ∈ pre, x.err = none := fun x hx => h x (List.mem_cons_of_mem c hx)
    simp only [List.cons_append, postAux, hc]
    cases hpv : pushVal c with
    | none => simpa [hpv, List.filterMap_cons, hpv] using ih acc hrest
    | some u =>
      have := ih (acc ++ [u]) hrest
      simp only [List.filterMap_cons, hpv] at *
      simpa [List.append_assoc] using this

/-- A completion list whose entries all push a url keeps its length under
`filterMap pushVal`. -/
theorem filterMap_pushVal_length (l : List PCompletion)
    (h : ∀ c ∈ l, (pushVal c).isSome) :
    (l.filterMap pushVal).length = l.length := by
  induction l with
  | nil => rfl
  | cons c t ih =>
    obtain ⟨u, hu⟩ := Option.isSome_iff_exists.mp (h c (List.mem_cons_self c t))
    have ht : ∀ x ∈ t, (pushVal x).isSome := fun x hx => h x (List.mem_cons_of_mem c hx)
    simp [List.filterMap_cons, hu, ih ht]

/-! ## Claim C10 -/

/-- C10 (confirmed): calling `post` on a coordinator with an empty registry
resolves with no error, an empty url list, and the byte length of `data`:
`async.each` over an empty collection invokes the final callback immediately
with `err = null`, so `bytes = data.length` and `urls = []` (lines 299-314).
-/
theorem post_empty_registry_resolves (data : List Nat) :
    postModel data [] = (none, [], data.length) := rfl

/-! ## Claim C1 -/

/-- C1 counterexample: with two providers where the success
`url = "mock://a"` arrives first and the failure `err = "boom"` second,
`post` hands the caller the single error `"boom"` — not an aggregate list of
per-provider errors — together with the url list `["mock://a"]`, which is
not empty. This refutes the claim that `post` waits for all operations,
rejects with an aggregate error carrying every underlying error, and returns
no URLs for succeeded providers. -/
theorem post_aggregate_error_claim_refuted :
    postModel [104, 105] [⟨none, some "mock://a"⟩, ⟨some "boom", none⟩] =
      (some "boom", ["mock://a"], 0) ∧ ("mock://a" :: []) ≠ ([] : List String) := by
  constructor
  · rfl
  · simp

/-- C1 (corrected): when at least one provider's write fails, `post` does not
wait for the remaining operations: `async.each` invokes the final callback at
the FIRST failed completion, passing that single provider error (no
aggregate), byte count `0`, and the `urls` array as collected so far — which
contains the truthy urls of every success that arrived before the failure,
even though the overall call is reported as failed. -/
theorem post_fails_fast_with_first_error (data : List Nat)
    (pre rest : List PCompletion) (c : PCompletion) (e : String)
    (hpre : ∀ x ∈ pre, x.err = none) (hc : c.err = some e) :
    postModel data (pre ++ c :: rest) =
      (some e, (pre ++ [c]).filterMap pushVal, 0) := by
  unfold postModel
  rw [postAux_append_of_no_err pre (c :: rest) [] hpre]
  simp only [postAux, hc, List.nil_append, List.filterMap_append]
  cases hpv : pushVal c <;> simp [postAux, hpv, List.filterMap_cons]

/-- Witness for C1: three providers; the first succeeds (`mock://a`), the
second fails (`boom`), the third's completion never matters — the callback
receives `("boom", ["mock://a"], 0)`. -/
theorem post_fails_fast_with_first_error_witness :
    postModel [7] [⟨none, some "mock://a"⟩, ⟨some "boom", none⟩, ⟨none, some "mock://c"⟩] =
      (some "boom", ["mock://a"], 0) :=
  post_fails_fast_with_first_error [7] [⟨none, some "mock://a"⟩]
    [⟨none, some "mock://c"⟩] ⟨some "boom", none⟩ "boom" (by simp) rfl

/-! ## Claim C2 -/

/-- C2 counterexample: registry order is provider 1 (`mock1://a`) then
provider 2 (`mock2://b`), but the completions arrive in the opposite order;
`post` resolves with `["mock2://b", "mock1://a"]` — completion-arrival
order — not the registry order `["mock1://a", "mock2://b"]`. The urls are
appended as completions arrive (line 303), not indexed by provider. -/
theorem post_registry_order_claim_refuted :
    postModel [0, 1, 2] [⟨none, some "mock2://b"⟩, ⟨none, some "mock1://a"⟩] =
      (none, ["mock2://b", "mock1://a"], 3) ∧
      ["mock2://b", "mock1://a"] ≠ ["mock1://a", "mock2://b"] := by
  constructor
  · rfl
  · simp

/-- C2 (corrected): when every provider's write succeeds with a truthy url,
`post` resolves with no error, the byte length of `data`, and a url list
containing exactly one url per registered provider — but in
completion-arrival order (a permutation of the registry-order urls), not
necessarily registry order. `comps` are the per-provider completions in
registry order and `arrivals` the same completions in arrival order. -/
theorem post_success_urls_arrival_order (data : List Nat)
    (comps arrivals : List PCompletion) (hperm : arrivals.Perm comps)
    (hok : ∀ c ∈ comps, c.err = none ∧ ∃ u, c.url = some u ∧ u ≠ "") :
    postModel data arrivals = (none, arrivals.filterMap pushVal, data.length) ∧
      (arrivals.filterMap pushVal).Perm (comps.filterMap pushVal) ∧
      (arrivals.filterMap pushVal).length = comps.length := by
  have hokA : ∀ c ∈ arrivals, c.err = none ∧ ∃ u, c.url = some u ∧ u ≠ "" :=
    fun c hc => hok c (hperm.mem_iff.mp hc)
  have hsome : ∀ c ∈ comps, (pushVal c).isSome := by
    intro c hc
    obtain ⟨-, u, hu, hne⟩ := hok c hc
    simp [pushVal, hu, hne]
  refine ⟨?_, hperm.filterMap pushVal, ?_⟩
  · unfold postModel
    have herr : ∀ x ∈ arrivals, x.err = none := fun x hx => (hokA x hx).1
    have := postAux_append_of_no_err arrivals [] [] herr
    rw [List.append_nil] at this
    simp [this, postAux]
  · rw [(hperm.filterMap pushVal).length_eq]
    exact filterMap_pushVal_length comps hsome

/-- Witness for C2: two providers succeeding with `u1://x` and `u2://y`,
completions arriving in reversed order: `post` resolves with
`["u2://y", "u1://x"]`, a permutation of the registry-order urls. -/
theorem post_success_urls_arrival_order_witness :
    postModel [9, 9] [⟨none, some "u2://y"⟩, ⟨none, some "u1://x"⟩] =
      (none, ["u2://y", "u1://x"], 2) ∧
      (["u2://y", "u1://x"] : List String).Perm ["u1://x", "u2://y"] := by
  have h := post_success_urls_arrival_order [9, 9]
    [⟨none, some "u1://x"⟩, ⟨none, some "u2://y"⟩]
    [⟨none, some "u2://y"⟩, ⟨none, some "u1://x"⟩]
    (by decide) (by decide)
  exact ⟨h.1, h.2.1⟩

/-! ## Claim C6 -/

/-- C6 counterexample: a candidate with `name`, `schemes`, and streaming
read/write and delete functions, but no scalar `get`, is rejected by the
admission filter (line 66-69 returns `false` when `get` is not a function),
while the claim says the absence of the scalar read function alone never
causes rejection. -/
theorem admission_scalar_optional_claim_refuted :
    conforms ⟨some "P", some ["mock"], false, true, true, true, true, none⟩ = false ∧
      claimedAdmits ⟨some "P", some ["mock"], false, true, true, true, true, none⟩ = true := by
  decide

/-- C6 (corrected): admission rejects a candidate exactly when `name` is
undefined, `schemes` is undefined, or ANY of the five interface functions
`get`, `getStream`, `post`, `postStream`, `delete` is absent — the scalar
read (`get`) and scalar write (`post`) functions are mandatory too, so their
absence alone does cause rejection. -/
theorem conforms_iff_all_capabilities (c : Cand) :
    conforms c =
      (c.name.isSome && c.schemes.isSome && c.get && c.getStream && c.post &&
        c.postStream && c.delete) := by
  obtain ⟨n, s, g, gs, p, ps, d, pr⟩ := c
  cases n <;> cases s <;> cases g <;> cases gs <;> cases p <;> cases ps <;> cases d <;> rfl

/-! ## Lemmas about `optionsForOptions` -/

/-- JavaScript `name.replace('%', fresh)` on a name whose first `%` sits
between `pre` and `suf`: the first `%` is replaced, the rest kept. -/
theorem replaceFirst_split (pre suf fresh : List Char) (h : '%' ∉ pre) :
    replaceFirst (pre ++ '%' :: suf) '%' fresh = pre ++ fresh ++ suf := by
  induction pre with
  | nil => simp [replaceFirst]
  | cons c cs ih =>
    have hc : c ≠ '%' := fun hcp => h (hcp ▸ List.mem_cons_self c cs)
    have hcs : '%' ∉ cs := fun hm => h (List.mem_cons_of_mem c hm)
    simp [replaceFirst, hc, ih hcs]

/-! ## Claim C8 -/

/-- C8 counterexample: the options record `{encoding: "enc", path: "pp",
name: ""}` supplies an explicit, placeholder-free name (the empty string),
yet normalization replaces it with the freshly generated identifier: `""` is
falsy, so `!options.name` treats it like an absent name (line 271-272). This
refutes the claim that explicitly supplied placeholder-free names are always
kept unchanged. -/
theorem options_empty_name_claim_refuted :
    optionsForOptions ['u'] ⟨some "enc", some "pp", some []⟩ =
      ⟨"enc", "pp", ['u']⟩ ∧ (['u'] : List Char) ≠ [] := by
  refine ⟨rfl, by simp⟩

/-- C8 (corrected): normalization defaults `encoding` to `"utf-8"` and
`path` to `""` when absent and keeps them when supplied; an absent name — or
an explicitly supplied EMPTY name, which JavaScript truthiness treats the
same way — becomes the freshly generated identifier; a name containing `%`
has exactly its first `%` replaced by the fresh identifier, preserving the
prefix and suffix; a non-empty placeholder-free name is kept unchanged. -/
theorem optionsForOptions_characterization (fresh : List Char) (o : WriteOptions)
    (e p : String) (n pre suf : List Char) :
    (o.encoding = none → (optionsForOptions fresh o).encoding = "utf-8") ∧
    (o.encoding = some e → (optionsForOptions fresh o).encoding = e) ∧
    (o.path = none → (optionsForOptions fresh o).path = "") ∧
    (o.path = some p → (optionsForOptions fresh o).path = p) ∧
    (o.name = none → (optionsForOptions fresh o).name = fresh) ∧
    (o.name = some [] → (optionsForOptions fresh o).name = fresh) ∧
    (o.name = some n → n ≠ [] → '%' ∉ n → (optionsForOptions fresh o).name = n) ∧
    (o.name = some (pre ++ '%' :: suf) → '%' ∉ pre →
      (optionsForOptions fresh o).name = pre ++ fresh ++ suf) := by
  refine ⟨fun h => ?_, fun h => ?_, fun h => ?_, fun h => ?_, fun h => ?_,
    fun h => ?_, fun h hne hnp => ?_, fun h hpre => ?_⟩
  · simp [optionsForOptions, h]
  · simp [optionsForOptions, h]
  · simp [optionsForOptions, h]
  · simp [optionsForOptions, h]
  · simp [optionsForOptions, h]
  · simp [optionsForOptions, h]
  · simp only [optionsForOptions, h]
    rw [if_neg (by simpa [List.isEmpty_iff] using hne), if_neg (by simpa using hnp)]
  · have hmem : '%' ∈ pre ++ '%' :: suf :=
      List.mem_append_right pre (List.mem_cons_self '%' suf)
    have hne : ¬(pre ++ '%' :: suf).isEmpty := by
      simp [List.isEmpty_iff]
    simp only [optionsForOptions, h]
    rw [if_neg hne, if_pos hmem, replaceFirst_split pre suf fresh hpre]

/-- Witness for C8: the template `"b%.t"` with fresh identifier `"u1"`
normalizes to the name `"bu1.t"`, and the empty options record yields the
defaults with the generated name. -/
theorem optionsForOptions_characterization_witness :
    (optionsForOptions ['u', '1'] ⟨none, none, some ['b', '%', '.', 't']⟩).name =
      ['b', 'u', '1', '.', 't'] ∧
    optionsForOptions ['u', '1'] ⟨none, none, none⟩ = ⟨"utf-8", "", ['u', '1']⟩ := by
  constructor
  · have h := optionsForOptions_characterization ['u', '1']
      ⟨none, none, some ['b', '%', '.', 't']⟩ "x" "x" [] ['b'] ['.', 't']
    exact h.2.2.2.2.2.2.2 rfl (by decide)
  · have h := optionsForOptions_characterization ['u', '1'] ⟨none, none, none⟩
      "x" "x" [] [] []
    have he := h.1 rfl
    have hp := h.2.2.1 rfl
    have hn := h.2.2.2.2.1 rfl
    cases hres : optionsForOptions ['u', '1'] (⟨none, none, none⟩ : WriteOptions)
    simp_all

/-! ## Claim C3 -/

/-- C3 (confirmed): if during the sink-creation phase every provider before
some provider produced a usable stream and that provider did not (it
returned an `Error` or a falsy value), the whole `postStream` call aborts
with that single provider's error: all handlers gathered so far are
discarded, no input channel is built and nothing is ever piped (the data
phase only runs on the `ok` branch), and the error is the provider's own
`Error` (or one synthesized naming it), never an aggregate (lines 376-384).
-/
theorem postStream_creation_failfast (pre rest : List (String × CreationResult))
    (nm : String) (r : CreationResult)
    (hpre : ∀ q ∈ pre, q.2.usable = true) (hr : r.usable = false) :
    createPhase (pre ++ (nm, r) :: rest) = .error (creationError nm r) := by
  induction pre with
  | nil =>
    cases r with
    | streamVal sid => simp [CreationResult.usable] at hr
    | errorVal e => rfl
    | nullVal => rfl
  | cons q pre ih =>
    obtain ⟨n0, r0⟩ := q
    have h0 : r0.usable = true := hpre (n0, r0) (List.mem_cons_self _ _)
    cases r0 with
    | streamVal sid =>
      have := ih (fun q hq => hpre q (List.mem_cons_of_mem _ hq))
      simp [createPhase, this, Except.map]
    | errorVal e => simp [CreationResult.usable] at h0
    | nullVal => simp [CreationResult.usable] at h0

/-- Witness for C3: providers `p1` (usable stream), `p2` (returns the error
`"boom"`), `p3` (usable stream): creation aborts with exactly `"boom"`. -/
theorem postStream_creation_failfast_witness :
    createPhase [("p1", .streamVal 0), ("p2", .errorVal "boom"), ("p3", .streamVal 1)] =
      .error "boom" :=
  postStream_creation_failfast [("p1", .streamVal 0)] [("p3", .streamVal 1)]
    "p2" (.errorVal "boom") (by decide) rfl

/-! ## Lemmas about the registry sort -/

/-- Members of an insertion are the inserted element or old members. -/
theorem mem_insertDesc {a x : Entry} {l : List Entry} :
    a ∈ insertDesc x l ↔ a = x ∨ a ∈ l := by
  induction l with
  | nil => simp [insertDesc]
  | cons y ys ih =>
    rw [insertDesc]
    by_cases h : x.priority ≥ y.priority
    · rw [if_pos h]
      simp [List.mem_cons]
    · rw [if_neg h]
      simp only [List.mem_cons, ih]
      tauto

/-- Inserting into a descending-sorted list keeps it descending-sorted. -/
theorem sorted_insertDesc {x : Entry} {l : List Entry}
    (h : l.Pairwise (fun a b => b.priority ≤ a.priority)) :
    (insertDesc x l).Pairwise (fun a b => b.priority ≤ a.priority) := by
  induction l with
  | nil => simp [insertDesc]
  | cons y ys ih =>
    rcases List.pairwise_cons.mp h with ⟨hy, hys⟩
    by_cases hxy : x.priority ≥ y.priority
    · rw [insertDesc, if_pos hxy]
      refine List.pairwise_cons.mpr ⟨?_, h⟩
      intro z hz
      rcases List.mem_cons.mp hz with rfl | hz
      · exact hxy
      · exact le_trans (hy z hz) hxy
    · rw [insertDesc, if_neg hxy]
      refine List.pairwise_cons.mpr ⟨?_, ih hys⟩
      intro z hz
      rcases mem_insertDesc.mp hz with rfl | hz
      · exact le_of_lt (lt_of_not_ge hxy)
      · exact hy z hz

/-- The result of the registry sort is descending-sorted by priority. -/
theorem sorted_sortByPriorityDesc (l : List Entry) :
    (sortByPriorityDesc l).Pairwise (fun a b => b.priority ≤ a.priority) := by
  induction l with
  | nil => simp [sortByPriorityDesc]
  | cons x xs ih => exact sorted_insertDesc ih

/-- Stability of the insertion at one priority level: the inserted element
lands in front of nothing with its own priority it should follow — elements
skipped over all have strictly larger priority. -/
theorem filter_insertDesc (x : Entry) (l : List Entry) (p : Int) :
    (insertDesc x l).filter (fun e => e.priority = p) =
      if x.priority = p then x :: l.filter (fun e => e.priority = p)
      else l.filter (fun e => e.priority = p) := by
  induction l with
  | nil => by_cases h : x.priority = p <;> simp [insertDesc, List.filter, h]
  | cons y ys ih =>
    by_cases hxy : x.priority ≥ y.priority
    · rw [insertDesc, if_pos hxy]
      by_cases hx : x.priority = p <;> simp [List.filter_cons, hx]
    · rw [insertDesc, if_neg hxy]
      have hyx : x.priority < y.priority := lt_of_not_ge hxy
      by_cases hx : x.priority = p
      · have hy : ¬(y.priority = p) := by omega
        simp [List.filter_cons, hy, ih, hx]
      · by_cases hy : y.priority = p <;> simp [List.filter_cons, hy, ih, hx]

/-- Stability of the registry sort: at every priority level, the sorted list
keeps the pre-sort (insertion) order — ties between equal priorities
preserve relative insertion order. -/
theorem filter_sortByPriorityDesc (l : List Entry) (p : Int) :
    (sortByPriorityDesc l).filter (fun e => e.priority = p) =
      l.filter (fun e => e.priority = p) := by
  induction l with
  | nil => rfl
  | cons x xs ih =>
    show (insertDesc x (sortByPriorityDesc xs)).filter _ = _
    rw [filter_insertDesc, List.filter_cons]
    by_cases hx : x.priority = p <;> simp [hx, ih]

/-- Insertion grows the list by one. -/
theorem length_insertDesc (x : Entry) (l : List Entry) :
    (insertDesc x l).length = l.length + 1 := by
  induction l with
  | nil => rfl
  | cons y ys ih =>
    by_cases h : x.priority ≥ y.priority <;> simp [insertDesc, h, ih]

/-- The registry sort preserves length. -/
theorem length_sortByPriorityDesc (l : List Entry) :
    (sortByPriorityDesc l).length = l.length := by
  induction l with
  | nil => rfl
  | cons x xs ih =>
    show (insertDesc x (sortByPriorityDesc xs)).length = _
    rw [length_insertDesc, ih, List.length_cons]

/-- The consecutive naturals `s, s+1, ..., s+n-1` as integers. -/
def intCasts (l : List Nat) : List Int :=
  l.map (fun k : Nat => (k : Int))

/-- Unfolding one step of a consecutive-integer run. -/
theorem intCasts_range'_succ (s n : Nat) :
    intCasts (List.range' s (n + 1)) = (s : Int) :: intCasts (List.range' (s + 1) n) := by
  rw [List.range'_succ]
  rfl

/-- A consecutive-integer run is strictly increasing. -/
theorem pairwise_lt_intCasts_range' (s n : Nat) :
    (intCasts (List.range' s n)).Pairwise (· < ·) := by
  unfold intCasts
  refine List.Pairwise.map _ (fun a b hab => ?_) (List.pairwise_lt_range' s n 1 (by omega))
  exact_mod_cast hab

/-- Appending a batch of conforming, unpriorized candidates assigns each the
priority `size-before-its-insertion + 1`: the appended priorities are the
consecutive integers `reg.length + 1, ..., reg.length + cands.length`. -/
theorem appendPhase_map_priority (cands : List Cand) (reg : List Entry)
    (h : ∀ c ∈ cands, conforms c = true ∧ c.priority = none) :
    (appendPhase reg cands).map (fun e => e.priority) =
      reg.map (fun e => e.priority) ++ intCasts (List.range' (reg.length + 1) cands.length) := by
  induction cands generalizing reg with
  | nil => simp [appendPhase, intCasts]
  | cons c cs ih =>
    obtain ⟨hconf, hpri⟩ := h c (List.mem_cons_self c cs)
    have hrest : ∀ x ∈ cs, conforms x = true ∧ x.priority = none :=
      fun x hx => h x (List.mem_cons_of_mem c hx)
    rw [appendPhase, if_pos hconf,
      ih (reg ++ [Entry.mk c (assignedPriority c reg.length)]) hrest]
    have hassign : assignedPriority c reg.length = ((reg.length + 1 : Nat) : Int) := by
      simp [assignedPriority, hpri]
    have hlen : (reg ++ [Entry.mk c (assignedPriority c reg.length)]).length + 1 =
        reg.length + 1 + 1 := by simp
    rw [List.length_cons, intCasts_range'_succ, hlen]
    simp [hassign, List.append_assoc]

/-- Appending a batch of conforming candidates grows the registry by the
batch size. -/
theorem length_appendPhase (cands : List Cand) (reg : List Entry)
    (h : ∀ c ∈ cands, conforms c = true) :
    (appendPhase reg cands).length = reg.length + cands.length := by
  induction cands generalizing reg with
  | nil => simp [appendPhase]
  | cons c cs ih =>
    rw [appendPhase, if_pos (h c (List.mem_cons_self c cs))]
    rw [ih _ (fun x hx => h x (List.mem_cons_of_mem c hx))]
    simp
    omega

/-! ## Claim C9 -/

/-- C9 (confirmed): admitting a batch of conforming providers that carry no
explicit priority (1) assigns each one the default priority `registry size
immediately before its insertion + 1` — so on an empty registry the first
gets `1` and the i-th gets `i+1`, and a provider admitted earlier always has
a strictly smaller priority than one admitted later; (2) leaves the
registry sorted in descending priority order after the admission; (3) at
every priority level preserves the relative insertion order (stable sort);
and (4) grows the registry by the batch size, so the property composes
across successive `addProvider` calls. -/
theorem addProvider_default_priorities (reg : List Entry) (cands : List Cand)
    (h : ∀ c ∈ cands, conforms c = true ∧ c.priority = none) :
    ((appendPhase reg cands).map (fun e => e.priority) =
        reg.map (fun e => e.priority) ++
          intCasts (List.range' (reg.length + 1) cands.length)) ∧
    (((appendPhase reg cands).map (fun e => e.priority)).drop reg.length).Pairwise (· < ·) ∧
    (admitBatch reg cands).Pairwise (fun a b => b.priority ≤ a.priority) ∧
    (∀ p : Int, (admitBatch reg cands).filter (fun e => e.priority = p) =
        (appendPhase reg cands).filter (fun e => e.priority = p)) ∧
    (admitBatch reg cands).length = reg.length + cands.length := by
  have hmap := appendPhase_map_priority cands reg h
  refine ⟨hmap, ?_, sorted_sortByPriorityDesc _,
    fun p => filter_sortByPriorityDesc _ p, ?_⟩
  · rw [hmap]
    have hdrop : (reg.map (fun e => e.priority) ++
        intCasts (List.range' (reg.length + 1) cands.length)).drop reg.length =
        intCasts (List.range' (reg.length + 1) cands.length) := by
      have hlen : reg.length = (reg.map (fun e => e.priority)).length := by simp
      rw [hlen, List.drop_left]
    rw [hdrop]
    exact pairwise_lt_intCasts_range' _ _
  · rw [admitBatch, length_sortByPriorityDesc,
      length_appendPhase cands reg (fun c hc => (h c hc).1)]

/-- Witness for C9: two conforming, unpriorized candidates admitted into an
empty registry produce a registry of size two (their assigned priorities,
by the first conjunct, are `1` and `2`). -/
theorem addProvider_default_priorities_witness :
    (admitBatch []
        [⟨some "A", some ["a"], true, true, true, true, true, none⟩,
         ⟨some "B", some ["b"], true, true, true, true, true, none⟩]).length =
      List.length ([] : List Entry) +
        List.length
          [(⟨some "A", some ["a"], true, true, true, true, true, none⟩ : Cand),
           ⟨some "B", some ["b"], true, true, true, true, true, none⟩] :=
  (addProvider_default_priorities []
    [⟨some "A", some ["a"], true, true, true, true, true, none⟩,
     ⟨some "B", some ["b"], true, true, true, true, true, none⟩]
    (by decide)).2.2.2.2

/-! ## Lemmas about the `postStream` session -/

/-- A handler is finished exactly when it is not unfinished. -/
theorem finished_eq_not_unfinished (h : SHandler) :
    h.finished = !h.unfinished := by
  rw [SHandler.finished, SHandler.unfinished, Bool.not_and]

/-- A looked-up handler is a member of the list. -/
theorem getAt_mem {α : Type} {hs : List α} {i : Nat} {h : α}
    (hget : getAt hs i = some h) : h ∈ hs := by
  induction hs generalizing i with
  | nil => simp [getAt] at hget
  | cons x t ih =>
    cases i with
    | zero =>
      rw [getAt] at hget
      exact (Option.some_inj.mp hget) ▸ List.mem_cons_self x t
    | succ k => exact List.mem_cons_of_mem x (ih hget)

/-- Members of an updated list are old members or the new element. -/
theorem mem_setAt {α : Type} {hs : List α} {i : Nat} {nh a : α}
    (hm : a ∈ setAt hs i nh) : a ∈ hs ∨ a = nh := by
  induction hs generalizing i with
  | nil => simp [setAt] at hm
  | cons x t ih =>
    cases i with
    | zero =>
      rcases List.mem_cons.mp hm with rfl | hm
      · exact Or.inr rfl
      · exact Or.inl (List.mem_cons_of_mem x hm)
    | succ k =>
      rcases List.mem_cons.mp hm with rfl | hm
      · exact Or.inl (List.mem_cons_self a t)
      · rcases ih hm with h | h
        · exact Or.inl (List.mem_cons_of_mem x h)
        · exact Or.inr h

/-- Updating an entry preserves length. -/
theorem length_setAt {α : Type} (hs : List α) (i : Nat) (nh : α) :
    (setAt hs i nh).length = hs.length := by
  induction hs generalizing i with
  | nil => rfl
  | cons x t ih =>
    cases i with
    | zero => rfl
    | succ k => simp [setAt, ih]

/-- A pending index identifies an unfinished handler. -/
theorem pendingIdx_mem {hs : List SHandler} {i : Nat} (hi : i ∈ pendingIdx hs) :
    ∃ h, getAt hs i = some h ∧ h.unfinished = true := by
  suffices haux : ∀ (hs : List SHandler) (k i : Nat), i ∈ pendingIdxAux hs k →
      ∃ h, getAt hs (i - k) = some h ∧ h.unfinished = true by
    simpa using haux hs 0 i hi
  intro hs
  induction hs with
  | nil => intro k i hi; simp [pendingIdxAux] at hi
  | cons x t ih =>
    intro k i hi
    have hge : ∀ j ∈ pendingIdxAux t (k + 1), k + 1 ≤ j := by
      suffices hg : ∀ (l : List SHandler) (m j : Nat), j ∈ pendingIdxAux l m → m ≤ j by
        exact fun j hj => hg t (k + 1) j hj
      intro l
      induction l with
      | nil => intro m j hj; simp [pendingIdxAux] at hj
      | cons y ys ihy =>
        intro m j hj
        rw [pendingIdxAux] at hj
        by_cases hy : y.unfinished
        · rw [if_pos hy] at hj
          rcases List.mem_cons.mp hj with rfl | hj
          · exact le_refl j
          · exact le_of_lt (lt_of_lt_of_le (Nat.lt_succ_self m) (ihy (m + 1) j hj))
        · rw [if_neg hy] at hj
          exact le_of_lt (lt_of_lt_of_le (Nat.lt_succ_self m) (ihy (m + 1) j hj))
    rw [pendingIdxAux] at hi
    by_cases hx : x.unfinished
    · rw [if_pos hx] at hi
      rcases List.mem_cons.mp hi with rfl | hi
      · exact ⟨x, by simp [getAt], hx⟩
      · obtain ⟨h, hget, hunf⟩ := ih (k + 1) i hi
        have hik : k + 1 ≤ i := hge i hi
        refine ⟨h, ?_, hunf⟩
        have : i - k = (i - (k + 1)) + 1 := by omega
        rw [this, getAt]
        exact hget
    · rw [if_neg hx] at hi
      obtain ⟨h, hget, hunf⟩ := ih (k + 1) i hi
      have hik : k + 1 ≤ i := hge i hi
      refine ⟨h, ?_, hunf⟩
      have : i - k = (i - (k + 1)) + 1 := by omega
      rw [this, getAt]
      exact hget

/-- The pending-index list is empty exactly when no handler is unfinished. -/
theorem pendingIdxAux_eq_nil (hs : List SHandler) (k : Nat) :
    pendingIdxAux hs k = [] ↔ ∀ h ∈ hs, h.unfinished = false := by
  induction hs generalizing k with
  | nil => simp [pendingIdxAux]
  | cons x t ih =>
    rw [pendingIdxAux]
    by_cases hx : x.unfinished
    · rw [if_pos hx]
      simp [hx]
    · rw [if_neg hx]
      rw [ih (k + 1)]
      simp [Bool.eq_false_iff.mpr hx]

/-- Finishing the unfinished handler at index `i` removes exactly `i` from
the pending-index list. -/
theorem pendingIdxAux_setAt {hs : List SHandler} {i : Nat} {h nh : SHandler}
    (hget : getAt hs i = some h) (hunf : h.unfinished = true)
    (hfin : nh.unfinished = false) (k : Nat) :
    pendingIdxAux (setAt hs i nh) k = (pendingIdxAux hs k).erase (k + i) := by
  induction hs generalizing i k with
  | nil => simp [getAt] at hget
  | cons x t ih =>
    cases i with
    | zero =>
      rw [getAt] at hget
      have hx : x = h := Option.some_inj.mp hget
      rw [setAt, pendingIdxAux, pendingIdxAux, if_neg (by simp [hfin]),
        if_pos (hx ▸ hunf)]
      simp
    | succ j =>
      rw [getAt] at hget
      rw [setAt, pendingIdxAux, pendingIdxAux]
      have hrec := ih hget (k + 1)
      have hkj : k + 1 + j = k + (j + 1) := by omega
      by_cases hx : x.unfinished
      · rw [if_pos hx, if_pos hx, hrec, hkj]
        have hne : k ≠ k + (j + 1) := by omega
        rw [List.erase_cons_tail]
        simp [hne]
      · rw [if_neg hx, if_neg hx, hrec, hkj]

/-- The session callback guard holds exactly when no handler is unfinished
and the handler list is non-empty. -/
theorem sessionFires_iff (hs : List SHandler) :
    sessionFires hs ↔ (∀ h ∈ hs, h.unfinished = false) ∧ hs ≠ [] := by
  rw [sessionFires]
  constructor
  · rintro ⟨h0, hpos⟩
    have hnil : hs.filter (fun h => h.unfinished) = [] := List.length_eq_zero.mp h0
    have hall : ∀ h ∈ hs, ¬(h.unfinished = true) := by
      simpa using List.filter_eq_nil_iff.mp hnil
    refine ⟨fun h hm => Bool.eq_false_iff.mpr (hall h hm), ?_⟩
    intro hemp
    rw [hemp] at hpos
    simp at hpos
  · rintro ⟨hall, hne⟩
    constructor
    · rw [List.length_eq_zero, List.filter_eq_nil_iff]
      intro h hm
      simp [hall h hm]
    · have hfil : hs.filter (fun h => h.finished) = hs := by
        rw [List.filter_eq_self]
        intro h hm
        rw [finished_eq_not_unfinished, hall h hm]
        rfl
      rw [hfil]
      exact List.length_pos.mpr hne

/-- Unfolding one completion step when the callback check runs and the guard
does not hold. -/
theorem fireCount_cons_nofire {hs hs' : List SHandler} {ev : SEvent}
    (rest : List SEvent) (hstep : stepCB hs ev = (hs', true))
    (hnf : ¬ sessionFires hs') :
    fireCount hs (ev :: rest) = fireCount hs' rest := by
  rw [fireCount, hstep]
  simp [hnf]

/-- Unfolding one completion step when the callback check runs and the guard
holds. -/
theorem fireCount_cons_fire {hs hs' : List SHandler} {ev : SEvent}
    (rest : List SEvent) (hstep : stepCB hs ev = (hs', true))
    (hf : sessionFires hs') :
    fireCount hs (ev :: rest) = 1 + fireCount hs' rest := by
  rw [fireCount, hstep]
  simp [hf]

/-- Running a set of terminal completion events that covers exactly the
pending handlers fires the session callback exactly once — at the last
event, since before it some handler is still pending. -/
theorem fireCount_run (evs : List SEvent) (hs : List SHandler)
    (hgood : ∀ h ∈ hs, h.stream = true)
    (hterm : ∀ ev ∈ evs, ev.terminal)
    (hperm : (evs.map (fun ev => ev.1)).Perm (pendingIdx hs))
    (hne : pendingIdx hs ≠ []) :
    fireCount hs evs = 1 ∧ ∀ k < evs.length, fireCount hs (evs.take k) = 0 := by
  induction evs generalizing hs with
  | nil =>
    exact absurd (hperm.symm.eq_nil ▸ rfl : pendingIdx hs = []) hne
  | cons ev rest ih =>
    obtain ⟨i, e, u⟩ := ev
    have hpermc : ((i, e, u).1 :: rest.map (fun ev => ev.1)).Perm (pendingIdx hs) := by
      simpa using hperm
    have hi : i ∈ pendingIdx hs :=
      hpermc.subset (List.mem_cons_self _ _)
    obtain ⟨h, hget, hunf⟩ := pendingIdx_mem hi
    have hstream : h.stream = true := hgood h (getAt_mem hget)
    have htev : SEvent.terminal (i, e, u) := hterm (i, e, u) (List.mem_cons_self _ _)
    have hfin : (SHandler.mk h.stream e u).unfinished = false := by
      rcases htev with ht | ht <;> simp [SHandler.unfinished, ht]
    have hstep : stepCB hs (i, e, u) = (setAt hs i ⟨h.stream, e, u⟩, true) := by
      simp [stepCB, hget, hstream]
    have hpend' : pendingIdx (setAt hs i ⟨h.stream, e, u⟩) = (pendingIdx hs).erase i := by
      have := pendingIdxAux_setAt hget hunf hfin 0
      simpa [pendingIdx] using this
    have hperm' : (rest.map (fun ev => ev.1)).Perm (pendingIdx (setAt hs i ⟨h.stream, e, u⟩)) := by
      rw [hpend']
      exact (List.cons_perm_iff_perm_erase.mp hpermc).2
    have hgood' : ∀ h' ∈ setAt hs i ⟨h.stream, e, u⟩, h'.stream = true := by
      intro h' hm
      rcases mem_setAt hm with hold | rfl
      · exact hgood h' hold
      · exact hstream
    have hne0 : hs ≠ [] := by
      intro hemp
      exact hne (by simp [hemp, pendingIdx, pendingIdxAux])
    have hne1 : setAt hs i ⟨h.stream, e, u⟩ ≠ [] := by
      intro hemp
      have := length_setAt hs i (SHandler.mk h.stream e u)
      rw [hemp] at this
      exact hne0 (List.length_eq_zero.mp this.symm)
    by_cases hrest : rest = []
    · subst hrest
      have hpnil : pendingIdx (setAt hs i ⟨h.stream, e, u⟩) = [] :=
        (hperm'.symm.eq_nil ▸ rfl : _)
      have hfires : sessionFires (setAt hs i ⟨h.stream, e, u⟩) := by
        rw [sessionFires_iff]
        exact ⟨(pendingIdxAux_eq_nil _ 0).mp hpnil, hne1⟩
      constructor
      · rw [fireCount_cons_fire [] hstep hfires]
        rfl
      · intro k hk
        have hk0 : k = 0 := by
          simp at hk
          omega
        subst hk0
        rfl
    · have hpne' : pendingIdx (setAt hs i ⟨h.stream, e, u⟩) ≠ [] := by
        intro hemp
        rw [hemp] at hperm'
        exact hrest (List.map_eq_nil_iff.mp hperm'.eq_nil)
      have hnofire : ¬ sessionFires (setAt hs i ⟨h.stream, e, u⟩) := by
        intro hf
        have := ((sessionFires_iff _).mp hf).1
        exact hpne' ((pendingIdxAux_eq_nil _ 0).mpr this)
      obtain ⟨ih1, ih2⟩ := ih (setAt hs i ⟨h.stream, e, u⟩) hgood'
        (fun x hx => hterm x (List.mem_cons_of_mem _ hx)) hperm' hpne'
      constructor
      · rw [fireCount_cons_nofire rest hstep hnofire]
        exact ih1
      · intro k hk
        cases k with
        | zero => rfl
        | succ k' =>
          rw [List.take_succ_cons, fireCount_cons_nofire (rest.take k') hstep hnofire]
          have hk' : k' < rest.length := by simpa using hk
          exact ih2 k' hk'

/-- The pending indices of a fresh session are `0, ..., n-1`. -/
theorem pendingIdx_initSession (n : Nat) :
    pendingIdx (initSession n) = List.range n := by
  suffices haux : ∀ n k, pendingIdxAux (List.replicate n ⟨true, JVal.null, JVal.null⟩) k =
      List.range' k n by
    rw [pendingIdx, initSession, haux, List.range_eq_range']
  intro n
  induction n with
  | zero => intro k; rfl
  | succ m ih =>
    intro k
    rw [List.replicate_succ, pendingIdxAux,
      if_pos (show SHandler.unfinished ⟨true, JVal.null, JVal.null⟩ = true from rfl),
      ih (k + 1), List.range'_succ]

/-! ## Claim C4 -/

/-- C4 counterexample: a `postStream` call on an empty registry has a
trivially successful sink-creation phase (the creation loop runs zero
times), yet its completion callback is NEVER invoked — not exactly once:
no provider ever calls back, and `handleProviderCallsBack`'s guard
`finishedHandlers.length > 0` can never hold with zero handlers, so the
session fires `0` times, not `1`. -/
theorem completion_fires_once_claim_refuted :
    createPhase [] = .ok [] ∧ fireCount (initSession 0) [] = 0 ∧ (0 : Nat) ≠ 1 := by
  refine ⟨rfl, rfl, by simp⟩

/-- C4 (corrected): for a `postStream` session over AT LEAST ONE provider
whose sink-creation phase succeeded, if every sink's provider calls back
exactly once (the events' handler indices are a permutation of `0..n-1`)
with a non-null url or a non-null error, then the session's completion
callback is invoked exactly once, and only at the last arrival — the moment
no sink handle remains pending — regardless of the arrival order; in
particular a sink's failure neither aborts its siblings nor triggers
completion while any sibling is still pending (every proper prefix of the
event sequence fires zero times). With zero providers the callback is never
invoked. -/
theorem postStream_completion_fires_once (n : Nat) (evs : List SEvent)
    (hn : 1 ≤ n)
    (hperm : (evs.map (fun ev => ev.1)).Perm (List.range n))
    (hterm : ∀ ev ∈ evs, ev.terminal) :
    fireCount (initSession n) evs = 1 ∧
      ∀ k < evs.length, fireCount (initSession n) (evs.take k) = 0 := by
  refine fireCount_run evs (initSession n) ?_ hterm ?_ ?_
  · intro h hm
    rw [initSession] at hm
    rw [List.eq_of_mem_replicate hm]
  · rw [pendingIdx_initSession]
    exact hperm
  · rw [pendingIdx_initSession]
    intro hemp
    rw [List.range_eq_nil] at hemp
    omega

/-- Witness for C4: two sinks; the failure of sink 1 (`err = "boom"`)
arrives first, the success of sink 0 (`mock://x`) second; the completion
callback fires exactly once. -/
theorem postStream_completion_fires_once_witness :
    fireCount (initSession 2)
      [(1, JVal.val "boom", JVal.null), (0, JVal.null, JVal.val "mock://x")] = 1 :=
  (postStream_completion_fires_once 2
    [(1, JVal.val "boom", JVal.null), (0, JVal.null, JVal.val "mock://x")]
    (by decide) (by decide) (by decide)).1

/-! ## Claim C5 -/

/-- C5 counterexample: a single sink whose provider signals completion with
a null error and the EMPTY url `""` is counted as a success — the aggregate
has no error and the url list is `[""]` — and likewise a completion whose
url is `undefined` (and error null) counts as a success carrying
`undefined`. `handleProviderCallsBack` only tests `_.isNull`, so no missing,
empty or implausibly short url is ever recorded as a failure, refuting the
claimed plausibility check. -/
theorem url_plausibility_claim_refuted :
    fireResult [⟨true, JVal.null, JVal.val ""⟩] 5 = (none, [JVal.val ""], 5) ∧
      fireResult [⟨true, JVal.null, JVal.undef⟩] 3 = (none, [JVal.undef], 3) := by
  exact ⟨rfl, rfl⟩

/-- C5 (corrected): a sink whose provider signals completion with a null
error and ANY non-null url value — including the empty string, an
arbitrarily short string, or `undefined` — is recorded as succeeded: when
all sinks complete that way, the session resolves with no error and with the
raw url values, exactly as stored; no plausibility, emptiness or length
check is applied to urls anywhere in `handleProviderCallsBack`. -/
theorem fireResult_no_url_validation (hs : List SHandler) (b : Nat)
    (h : ∀ x ∈ hs, x.error = JVal.null ∧ x.url.isNull = false) :
    fireResult hs b = (none, hs.map (fun x => x.url), b) := by
  rw [fireResult]
  have hurls : hs.filter (fun x => !x.url.isNull) = hs := by
    rw [List.filter_eq_self]
    intro x hm
    rw [(h x hm).2]
    rfl
  have herrs : hs.filter (fun x => !x.error.isNull) = [] := by
    rw [List.filter_eq_nil_iff]
    intro x hm
    rw [(h x hm).1]
    simp [JVal.isNull]
  rw [hurls, herrs]
  simp

/-- Witness for C5: two sinks completing with the empty url and with an
`undefined` url: the session resolves successfully with those raw values. -/
theorem fireResult_no_url_validation_witness :
    fireResult [⟨true, JVal.null, JVal.val ""⟩, ⟨true, JVal.null, JVal.undef⟩] 0 =
      (none, [JVal.val "", JVal.undef], 0) :=
  fireResult_no_url_validation
    [⟨true, JVal.null, JVal.val ""⟩, ⟨true, JVal.null, JVal.undef⟩] 0 (by decide)

/-! ## Claim C7 -/

/-- C7 counterexample: for a provider WITHOUT a scalar `get` whose stream
would emit the bytes `[83, 111]`, the claim predicts that `get` with
encoding `"binary"` returns those raw bytes; the code instead calls the
absent `provider.get` unconditionally (line 211), which throws — there is
no streaming fallback, no accumulation and no binary path in `get`. -/
theorem get_stream_fallback_claim_refuted :
    msGet ⟨none, .ok [[83, 111]]⟩ "binary" =
        .error "TypeError: provider.get is not a function" ∧
      claimedGet (fun _ _ => "") ⟨none, .ok [[83, 111]]⟩ "binary" = .ok (.raw [83, 111]) ∧
      msGet ⟨none, .ok [[83, 111]]⟩ "binary" ≠
        claimedGet (fun _ _ => "") ⟨none, .ok [[83, 111]]⟩ "binary" := by
  refine ⟨rfl, rfl, fun hc => Except.noConfusion hc⟩

/-- C7 (corrected): after routing, `get` ALWAYS delegates to the provider's
scalar read operation and returns its outcome; admission (claim C6's
corrected form) guarantees every registered provider has one. A provider
without a scalar read makes the call throw — `get` implements no fallback to
`getStream`, no chunk accumulation and no `"binary"` special case. -/
theorem get_always_delegates (p : ReadProvider) (r : Except String GotData)
    (enc : String) :
    (p.get = some r → msGet p enc = r) ∧
      (p.get = none →
        msGet p enc = .error "TypeError: provider.get is not a function") := by
  constructor <;> intro h <;> simp [msGet, h]

/-- Witness for C7: a provider whose scalar read returns
`"some data to return"`: `get` returns exactly that outcome. -/
theorem get_always_delegates_witness :
    msGet ⟨some (.ok (.text "some data to return")), .ok []⟩ "utf-8" =
      .ok (.text "some data to return") :=
  (get_always_delegates ⟨some (.ok (.text "some data to return")), .ok []⟩
    (.ok (.text "some data to return")) "utf-8").1 rfl

end MultiStorageModel
